import Mathlib

/-!
Verification of the xbar-stocks-rs portfolio checker.

The development shallowly embeds the two Rust source files:
  - src/lib.rs: fetch_latest_price, whose pure core extracts a price from a
    response body with the pattern id=aq_<ticker>_c4[^>]+>([0-9]+\.?[0-9]*)</span>
    (first match in document order) and parses the capture as an f64;
  - src/main.rs: consolidate_positions (weighted-average cost basis per ticker),
    the rayon fan-out that pairs each consolidated position with its fetch
    outcome, the totals/record-building loop, and the sort by change percent
    with partial_cmp(..).unwrap_or(Equal).

Rust f64 values are modelled exactly: an f64 is a rational number, positive
infinity, negative infinity, or NaN, and the arithmetic on this type follows
the IEEE special-value rules while keeping finite arithmetic exact (rounding
is idealised away, matching the specification's "up to floating-point
tolerance" phrasing).
-/

deriving instance DecidableEq for Except

/-- Model of an f64 value: an exact rational, one of the two infinities,
or NaN. -/
inductive FVal where
  | fin (q : ℚ)
  | posInf
  | negInf
  | nan
deriving DecidableEq

/-- IEEE negation on the f64 model. -/
def fneg : FVal → FVal
  | FVal.fin q => FVal.fin (-q)
  | FVal.posInf => FVal.negInf
  | FVal.negInf => FVal.posInf
  | FVal.nan => FVal.nan

/-- IEEE addition on the f64 model (exact on finite values). -/
def fadd : FVal → FVal → FVal
  | FVal.nan, _ => FVal.nan
  | _, FVal.nan => FVal.nan
  | FVal.posInf, FVal.negInf => FVal.nan
  | FVal.negInf, FVal.posInf => FVal.nan
  | FVal.posInf, _ => FVal.posInf
  | _, FVal.posInf => FVal.posInf
  | FVal.negInf, _ => FVal.negInf
  | _, FVal.negInf => FVal.negInf
  | FVal.fin a, FVal.fin b => FVal.fin (a + b)

/-- IEEE subtraction on the f64 model. -/
def fsub (a b : FVal) : FVal := fadd a (fneg b)

/-- IEEE multiplication on the f64 model (exact on finite values). -/
def fmul : FVal → FVal → FVal
  | FVal.nan, _ => FVal.nan
  | _, FVal.nan => FVal.nan
  | FVal.fin a, FVal.fin b => FVal.fin (a * b)
  | FVal.fin a, FVal.posInf =>
      if a = 0 then FVal.nan else if 0 < a then FVal.posInf else FVal.negInf
  | FVal.fin a, FVal.negInf =>
      if a = 0 then FVal.nan else if 0 < a then FVal.negInf else FVal.posInf
  | FVal.posInf, FVal.fin b =>
      if b = 0 then FVal.nan else if 0 < b then FVal.posInf else FVal.negInf
  | FVal.negInf, FVal.fin b =>
      if b = 0 then FVal.nan else if 0 < b then FVal.negInf else FVal.posInf
  | FVal.posInf, FVal.posInf => FVal.posInf
  | FVal.posInf, FVal.negInf => FVal.negInf
  | FVal.negInf, FVal.posInf => FVal.negInf
  | FVal.negInf, FVal.negInf => FVal.posInf

/-- IEEE division on the f64 model (exact on finite values; a finite value
divided by zero gives an infinity or NaN exactly as f64 does for +0.0). -/
def fdiv : FVal → FVal → FVal
  | FVal.nan, _ => FVal.nan
  | _, FVal.nan => FVal.nan
  | FVal.fin a, FVal.fin b =>
      if b = 0 then (if a = 0 then FVal.nan else if 0 < a then FVal.posInf else FVal.negInf)
      else FVal.fin (a / b)
  | FVal.fin _, FVal.posInf => FVal.fin 0
  | FVal.fin _, FVal.negInf => FVal.fin 0
  | FVal.posInf, FVal.fin b => if 0 ≤ b then FVal.posInf else FVal.negInf
  | FVal.negInf, FVal.fin b => if 0 ≤ b then FVal.negInf else FVal.posInf
  | FVal.posInf, _ => FVal.nan
  | FVal.negInf, _ => FVal.nan

/-- Model of Rust's PartialOrd::partial_cmp on f64: None exactly when either
operand is NaN, otherwise the total order with negInf below all finite values
and posInf above them. -/
def pcmp : FVal → FVal → Option Ordering
  | FVal.nan, _ => none
  | _, FVal.nan => none
  | FVal.fin a, FVal.fin b =>
      some (if a < b then Ordering.lt else if b < a then Ordering.gt else Ordering.eq)
  | FVal.negInf, FVal.negInf => some Ordering.eq
  | FVal.negInf, _ => some Ordering.lt
  | _, FVal.negInf => some Ordering.gt
  | FVal.posInf, FVal.posInf => some Ordering.eq
  | FVal.posInf, _ => some Ordering.gt
  | _, FVal.posInf => some Ordering.lt

/-- A raw holding record, as deserialized from the CSV in src/main.rs
(struct Position: ticker, buy_price, shares). -/
structure Position where
  ticker : String
  buy_price : FVal
  shares : FVal
deriving DecidableEq

/-- Distinct tickers of the input, first occurrence first. The Rust code
keys a HashMap by ticker; its iteration order is arbitrary and nothing
downstream depends on it, so the model fixes first-occurrence order. -/
def tickersOf (ps : List Position) : List String :=
  (ps.map Position.ticker).dedup

/-- Accumulated total cost for one ticker: the HashMap entry's first
component after the accumulation loop of consolidate_positions
(entry.0 += position.buy_price * position.shares, in input order). -/
def costFor (ps : List Position) (t : String) : FVal :=
  (ps.filter (fun p => p.ticker == t)).foldl
    (fun acc p => fadd acc (fmul p.buy_price p.shares)) (FVal.fin 0)

/-- Accumulated total shares for one ticker: the HashMap entry's second
component after the accumulation loop of consolidate_positions. -/
def sharesFor (ps : List Position) (t : String) : FVal :=
  (ps.filter (fun p => p.ticker == t)).foldl
    (fun acc p => fadd acc p.shares) (FVal.fin 0)

/-- consolidate_positions from src/main.rs: one output Position per distinct
ticker, buy_price = total_cost / total_shares (unguarded division), shares =
total_shares. -/
def consolidate_positions (ps : List Position) : List Position :=
  (tickersOf ps).map (fun t => ⟨t, fdiv (costFor ps t) (sharesFor ps t), sharesFor ps t⟩)

/-- Specification-side sum of a list of f64 values (left fold, as Rust's
+= accumulation associates). -/
def sumF (l : List FVal) : FVal := l.foldl fadd (FVal.fin 0)

/-- Specification-side sum of buyPrice_i * shares_i over the raw entries
with a given ticker. -/
def specCostSum (ps : List Position) (t : String) : FVal :=
  sumF ((ps.filter (fun p => p.ticker == t)).map (fun p => fmul p.buy_price p.shares))

/-- Specification-side sum of shares_i over the raw entries with a given
ticker. -/
def specSharesSum (ps : List Position) (t : String) : FVal :=
  sumF ((ps.filter (fun p => p.ticker == t)).map Position.shares)

/-- A Position whose numeric fields are finite f64 values, as produced by
CSV deserialization of decimal columns (the data model of the spec). -/
def finitePos (p : Position) : Prop :=
  (∃ b : ℚ, p.buy_price = FVal.fin b) ∧ (∃ s : ℚ, p.shares = FVal.fin s)

/-- ASCII digit test, the character class [0-9] of the extraction regex and
of Rust's float grammar. -/
def isDig (c : Char) : Bool := decide (48 ≤ c.toNat ∧ c.toNat ≤ 57)

/-- Character class of the regex capture group [0-9]+\.?[0-9]*: a digit or
a dot. -/
def isNumC (c : Char) : Bool := isDig c || c = '.'

/-- ASCII lowercasing of one character, the model of Rust's lowercasing for
ticker symbols (which are ASCII) and of the f64 keyword comparison. -/
def lowChar (c : Char) : Char :=
  if 65 ≤ c.toNat ∧ c.toNat ≤ 90 then Char.ofNat (c.toNat + 32) else c

/-- ASCII lowercasing of a string, as a character list. -/
def lowStr (s : String) : List Char := s.toList.map lowChar

/-- Split a character list at its longest prefix of characters satisfying p
(the span of p). -/
def spanP (p : Char → Bool) : List Char → List Char × List Char
  | [] => ([], [])
  | c :: s => if p c then (c :: (spanP p s).1, (spanP p s).2) else ([], c :: s)

/-- Strip a literal character sequence m from the front of s, returning the
remainder when m is a prefix of s. -/
def stripLit : List Char → List Char → Option (List Char)
  | [], s => some s
  | _ :: _, [] => none
  | c :: m, d :: s => if c = d then stripLit m s else none

/-- Whether a character list matches the capture grammar [0-9]+\.?[0-9]*:
nonempty, leading digit, only digits and dots, at most one dot. -/
def validLit (l : List Char) : Bool :=
  match l with
  | [] => false
  | c :: _ => isDig c && l.all isNumC && decide (l.count '.' ≤ 1)

/-- Numeric value of a digit string, most significant digit first. -/
def digitsToNat (l : List Char) : ℕ :=
  l.foldl (fun a c => a * 10 + (c.toNat - 48)) 0

/-- Strip an optional leading sign, reporting whether it was a minus. -/
def splitSign (l : List Char) : Bool × List Char :=
  match l with
  | c :: r => if c = '-' then (true, r) else if c = '+' then (false, r) else (false, l)
  | [] => (false, l)

/-- Mantissa of Rust's f64 grammar: digits, an optional dot with further
digits, at least one digit overall; returns its exact rational value and the
unconsumed remainder. -/
def parseMantissa (l : List Char) : Option (ℚ × List Char) :=
  match stripLit ['.'] (spanP isDig l).2 with
  | some r2 =>
    if (spanP isDig l).1.isEmpty && (spanP isDig r2).1.isEmpty then none
    else
      some ((digitsToNat (spanP isDig l).1 : ℚ) +
        (digitsToNat (spanP isDig r2).1 : ℚ) / 10 ^ (spanP isDig r2).1.length,
        (spanP isDig r2).2)
  | none =>
    if (spanP isDig l).1.isEmpty then none
    else some ((digitsToNat (spanP isDig l).1 : ℚ), (spanP isDig l).2)

/-- Exponent digits of Rust's f64 grammar after the e/E: optional sign then
one or more digits, consuming the whole remainder. -/
def parseExpRest (r : List Char) : Option ℤ :=
  match splitSign r with
  | (neg, r2) =>
    match spanP isDig r2 with
    | (ds, r3) =>
      if ds.isEmpty then none
      else if r3.isEmpty then
        some (if neg then -(digitsToNat ds : ℤ) else (digitsToNat ds : ℤ))
      else none

/-- Optional exponent part of Rust's f64 grammar. -/
def parseExp : List Char → Option ℤ
  | [] => some 0
  | 'e' :: r => parseExpRest r
  | 'E' :: r => parseExpRest r
  | _ => none

/-- Model of Rust's f64::from_str: optional sign, then the keywords
inf/infinity/nan (ASCII case-insensitive) or a mantissa with optional
exponent. Finite values are exact rationals (rounding and overflow to
infinity are idealised away). -/
def rustParse (l : List Char) : Option FVal :=
  match splitSign l with
  | (neg, r) =>
    if r.map lowChar = "inf".toList ∨ r.map lowChar = "infinity".toList then
      some (if neg then FVal.negInf else FVal.posInf)
    else if r.map lowChar = "nan".toList then some FVal.nan
    else
      match parseMantissa r with
      | none => none
      | some (m, rest) =>
        match parseExp rest with
        | none => none
        | some e => some (FVal.fin ((if neg then -m else m) * (10 : ℚ) ^ e))

/-- The ticker-specific literal part of the extraction pattern in
fetch_latest_price: id=aq_<lowercased ticker>_c4. -/
def markerOf (t : String) : List Char :=
  "id=aq_".toList ++ lowStr t ++ "_c4".toList

/-- The closing literal of the extraction pattern. -/
def closeL : List Char := "</span>".toList

/-- Attempt to match the full extraction regex at the start of s: the marker
literal, one or more non-'>' characters, '>', the numeric capture, then
"</span>". Returns the capture on success. -/
def matchAt (s m : List Char) : Option (List Char) :=
  match stripLit m s with
  | none => none
  | some r1 =>
    if (spanP (fun c => c != '>') r1).1.isEmpty then none
    else
      match stripLit ['>'] (spanP (fun c => c != '>') r1).2 with
      | none => none
      | some r2 =>
        if validLit (spanP isNumC r2).1 then
          match stripLit closeL (spanP isNumC r2).2 with
          | some _ => some (spanP isNumC r2).1
          | none => none
        else none

/-- Leftmost match of the extraction regex: try every start position from
the left, returning the first capture. -/
def scanExtract : List Char → List Char → Option (List Char)
  | [], _ => none
  | c :: t, m =>
    match matchAt (c :: t) m with
    | some cap => some cap
    | none => scanExtract t m

/-- Error message of the no-match branch of fetch_latest_price. -/
def notFoundMsg : String := "Could not find price in response"

/-- Error message standing for a propagated f64 parse error in
fetch_latest_price (the `?` on parse). -/
def parseFailMsg : String := "invalid float literal"

/-- Pure core of fetch_latest_price from src/lib.rs, after the HTTP status
check and UTF-8 decode: build the ticker-specific regex, take its first
match in the body, and parse the capture as an f64; a parse error would
propagate as its own error, and no match gives the NotFound message. -/
def extract_price (ticker body : String) : Except String FVal :=
  match scanExtract body.toList (markerOf ticker) with
  | some cap =>
    match rustParse cap with
    | some v => Except.ok v
    | none => Except.error parseFailMsg
  | none => Except.error notFoundMsg

/-- The rayon fan-out in main: pair every consolidated position with the
outcome of fetching its ticker. par_iter().map().collect() preserves order
and cardinality, so its functional content is List.map. -/
def resolveAll (fetch : String → Except String FVal) (ps : List Position) :
    List (Position × Except String FVal) :=
  ps.map (fun p => (p, fetch p.ticker))

/-- One entry of position_data in main: ticker, buy price, current price,
change percent, profit/loss, optional error message. -/
structure RankedRecord where
  ticker : String
  buy_price : FVal
  current_price : FVal
  change_percent : FVal
  profit_loss : FVal
  error : Option String
deriving DecidableEq

/-- investment = buy_price * shares, as computed in main's loop. -/
def investment (p : Position) : FVal := fmul p.buy_price p.shares

/-- The record main pushes for one resolved position: on success the
computed prices and percentages, on failure the placeholders 0, negative
infinity, 0 and the error message. -/
def mkRec (pr : Position × Except String FVal) : RankedRecord :=
  match pr.2 with
  | Except.ok c =>
    { ticker := pr.1.ticker
      buy_price := pr.1.buy_price
      current_price := c
      change_percent := fmul (fdiv (fsub c pr.1.buy_price) pr.1.buy_price) (FVal.fin 100)
      profit_loss := fsub (fmul c pr.1.shares) (fmul pr.1.buy_price pr.1.shares)
      error := none }
  | Except.error e =>
    { ticker := pr.1.ticker
      buy_price := pr.1.buy_price
      current_price := FVal.fin 0
      change_percent := FVal.negInf
      profit_loss := FVal.fin 0
      error := some e }

/-- position_data before sorting: one record per resolved position, in
order. -/
def position_data (resolved : List (Position × Except String FVal)) : List RankedRecord :=
  resolved.map mkRec

/-- total_investment: the += accumulation over all resolved positions of
buy_price * shares, succeeded and failed alike. -/
def total_investment (resolved : List (Position × Except String FVal)) : FVal :=
  resolved.foldl (fun acc pr => fadd acc (investment pr.1)) (FVal.fin 0)

/-- total_current_value: the += accumulation of current_price * shares over
the succeeded positions only. -/
def total_current_value (resolved : List (Position × Except String FVal)) : FVal :=
  resolved.foldl
    (fun acc pr =>
      match pr.2 with
      | Except.ok c => fadd acc (fmul c pr.1.shares)
      | Except.error _ => acc)
    (FVal.fin 0)

/-- total_change_percent as computed unguarded in main:
((total_current_value - total_investment) / total_investment) * 100. -/
def total_change_percent (resolved : List (Position × Except String FVal)) : FVal :=
  fmul (fdiv (fsub (total_current_value resolved) (total_investment resolved))
        (total_investment resolved)) (FVal.fin 100)

/-- The sort comparator of main: b.3.partial_cmp(&a.3).unwrap_or(Equal),
a total function on records that maps NaN-adjacent comparisons to Equal. -/
def cmpRec (a b : RankedRecord) : Ordering :=
  (pcmp b.change_percent a.change_percent).getD Ordering.eq

/-- Non-strict order induced by the comparator: a may come before b. -/
def leRec (a b : RankedRecord) : Bool :=
  match cmpRec a b with
  | Ordering.gt => false
  | _ => true

/-- Stable insertion of a record into a list sorted by the comparator. -/
def insRec (x : RankedRecord) : List RankedRecord → List RankedRecord
  | [] => [x]
  | y :: ys => if leRec x y then x :: y :: ys else y :: insRec x ys

/-- Model of Vec::sort_by with the comparator of main: a stable sort putting
records in ascending comparator order, i.e. descending change percent. -/
def sortRecs (l : List RankedRecord) : List RankedRecord :=
  l.foldr insRec []

/-- A resolved pair that is well formed per the data model of the spec:
positive finite buy price, and a finite price on success. -/
def wfPair (pr : Position × Except String FVal) : Prop :=
  (∃ b : ℚ, pr.1.buy_price = FVal.fin b ∧ 0 < b) ∧
  (∀ c, pr.2 = Except.ok c → ∃ q : ℚ, c = FVal.fin q)

/-- Well-formed embedding of a price for a ticker in a body: the marker,
at least one non-'>' character, '>', a valid numeric literal, "</span>". -/
def hasEmbedding (t : String) (body : String) : Prop :=
  ∃ pre attrs lit post : List Char,
    body.toList = pre ++ markerOf t ++ attrs ++ '>' :: (lit ++ closeL ++ post) ∧
    attrs ≠ [] ∧ (∀ c ∈ attrs, c ≠ '>') ∧ validLit lit = true

/-- Whether a fetch outcome is a success. -/
def isOkB : Except String FVal → Bool
  | Except.ok _ => true
  | Except.error _ => false

/-- The successful price of a fetch outcome, 0 for a failure (only ever
applied to successes in the statements below). -/
def okOr0 : Except String FVal → FVal
  | Except.ok c => c
  | Except.error _ => FVal.fin 0

/-- Shape of a record built from a well-formed resolved pair: a success
carries a finite change percent and no error; a failure carries the
negative-infinity sentinel and an error message. -/
def wfRec (r : RankedRecord) : Prop :=
  (∃ q : ℚ, r.change_percent = FVal.fin q ∧ r.error = none) ∨
  (r.change_percent = FVal.negInf ∧ r.error ≠ none)

/-- A record whose change percent is finite or the negative-infinity
sentinel (never NaN or positive infinity). -/
def finOrBot (r : RankedRecord) : Prop :=
  (∃ q : ℚ, r.change_percent = FVal.fin q) ∨ r.change_percent = FVal.negInf

/-- Sort key of a record as an element of a genuine linear order: a finite
change percent is itself, the failure sentinel is bottom. -/
def cpKey (r : RankedRecord) : WithBot ℚ :=
  match r.change_percent with
  | FVal.fin q => (q : WithBot ℚ)
  | _ => ⊥

/-! ### Basic facts about the f64 model -/

theorem fadd_fin (a b : ℚ) : fadd (FVal.fin a) (FVal.fin b) = FVal.fin (a + b) := rfl

theorem fmul_fin (a b : ℚ) : fmul (FVal.fin a) (FVal.fin b) = FVal.fin (a * b) := rfl

theorem fsub_fin (a b : ℚ) : fsub (FVal.fin a) (FVal.fin b) = FVal.fin (a - b) := by
  simp [fsub, fneg, fadd, sub_eq_add_neg]

theorem fdiv_fin (a b : ℚ) (hb : b ≠ 0) :
    fdiv (FVal.fin a) (FVal.fin b) = FVal.fin (a / b) := by
  simp [fdiv, hb]

theorem foldl_fadd_fin {α : Type} (f : α → FVal) :
    ∀ (l : List α) (a : ℚ), (∀ x ∈ l, ∃ q : ℚ, f x = FVal.fin q) →
      ∃ c : ℚ, l.foldl (fun acc x => fadd acc (f x)) (FVal.fin a) = FVal.fin c := by
  intro l
  induction l with
  | nil => exact fun a _ => ⟨a, rfl⟩
  | cons x l ih =>
    intro a h
    obtain ⟨q, hq⟩ := h x (List.mem_cons_self x l)
    rw [List.foldl_cons, hq, fadd_fin]
    exact ih (a + q) (fun y hy => h y (List.mem_cons_of_mem _ hy))

/-! ### Consolidation -/

theorem costFor_fin (ps : List Position) (t : String) (h : ∀ p ∈ ps, finitePos p) :
    ∃ c : ℚ, costFor ps t = FVal.fin c := by
  refine foldl_fadd_fin (fun p : Position => fmul p.buy_price p.shares) _ 0 ?_
  intro p hp
  obtain ⟨⟨b, hb⟩, ⟨s, hs⟩⟩ := h p (List.mem_filter.mp hp).1
  exact ⟨b * s, by simp only [hb, hs, fmul_fin]⟩

theorem sharesFor_fin (ps : List Position) (t : String) (h : ∀ p ∈ ps, finitePos p) :
    ∃ c : ℚ, sharesFor ps t = FVal.fin c := by
  refine foldl_fadd_fin Position.shares _ 0 ?_
  intro p hp
  exact (h p (List.mem_filter.mp hp).1).2

theorem specCostSum_eq (ps : List Position) (t : String) :
    specCostSum ps t = costFor ps t := by
  simp [specCostSum, sumF, costFor, List.foldl_map]

theorem specSharesSum_eq (ps : List Position) (t : String) :
    specSharesSum ps t = sharesFor ps t := by
  simp [specSharesSum, sumF, sharesFor, List.foldl_map]

theorem find?_map_keys (mk : String → Position) (hmk : ∀ k, (mk k).ticker = k)
    (ks : List String) : ∀ t ∈ ks, (ks.map mk).find? (fun p => p.ticker == t) = some (mk t) := by
  induction ks with
  | nil => intro t ht; cases ht
  | cons k ks ih =>
    intro t ht
    rcases List.mem_cons.mp ht with h | h
    · subst h
      rw [List.map_cons, List.find?_cons_of_pos]
      simp [hmk]
    · by_cases hkt : k = t
      · subst hkt
        rw [List.map_cons, List.find?_cons_of_pos]
        simp [hmk]
      · rw [List.map_cons, List.find?_cons_of_neg, ih t h]
        simp [hmk, hkt]

theorem consolidate_find (ps : List Position) (t : String)
    (h : t ∈ ps.map Position.ticker) :
    (consolidate_positions ps).find? (fun p => p.ticker == t) =
      some ⟨t, fdiv (costFor ps t) (sharesFor ps t), sharesFor ps t⟩ := by
  have ht : t ∈ tickersOf ps := List.mem_dedup.mpr h
  exact find?_map_keys _ (fun k => rfl) _ t ht

/-- C1 (amended): for any input of finite positions and any ticker occurring
in it whose accumulated shares are nonzero, the consolidated record for that
ticker satisfies buyPrice * shares = sum of buyPrice_i * shares_i (exactly,
in the idealised arithmetic) and shares = sum of shares_i. As stated without
the nonzero-shares hypothesis the claim is false (see the counterexample). -/
theorem c1_consolidate_product_and_shares (ps : List Position) (t : String)
    (hfin : ∀ p ∈ ps, finitePos p) (hmem : t ∈ ps.map Position.ticker)
    (hnz : sharesFor ps t ≠ FVal.fin 0) :
    (consolidate_positions ps).find? (fun p => p.ticker == t) =
      some ⟨t, fdiv (costFor ps t) (sharesFor ps t), sharesFor ps t⟩ ∧
    fmul (fdiv (costFor ps t) (sharesFor ps t)) (sharesFor ps t) = specCostSum ps t ∧
    sharesFor ps t = specSharesSum ps t := by
  obtain ⟨C, hC⟩ := costFor_fin ps t hfin
  obtain ⟨S, hS⟩ := sharesFor_fin ps t hfin
  have hS0 : S ≠ 0 := by
    rintro rfl
    exact hnz hS
  refine ⟨consolidate_find ps t hmem, ?_, (specSharesSum_eq ps t).symm⟩
  rw [hC, hS, fdiv_fin _ _ hS0, fmul_fin, div_mul_cancel₀ _ hS0, specCostSum_eq, hC]

/-- Witness for C1 at the spec's own end-to-end example: two AAPL lots of 10
shares at 100 and 120 consolidate to cost 2200 over 20 shares. -/
theorem c1_witness :
    (consolidate_positions [⟨"AAPL", FVal.fin 100, FVal.fin 10⟩, ⟨"AAPL", FVal.fin 120, FVal.fin 10⟩]).find?
        (fun p => p.ticker == "AAPL") =
      some ⟨"AAPL",
        fdiv (costFor [⟨"AAPL", FVal.fin 100, FVal.fin 10⟩, ⟨"AAPL", FVal.fin 120, FVal.fin 10⟩] "AAPL")
          (sharesFor [⟨"AAPL", FVal.fin 100, FVal.fin 10⟩, ⟨"AAPL", FVal.fin 120, FVal.fin 10⟩] "AAPL"),
        sharesFor [⟨"AAPL", FVal.fin 100, FVal.fin 10⟩, ⟨"AAPL", FVal.fin 120, FVal.fin 10⟩] "AAPL"⟩ ∧
    fmul (fdiv (costFor [⟨"AAPL", FVal.fin 100, FVal.fin 10⟩, ⟨"AAPL", FVal.fin 120, FVal.fin 10⟩] "AAPL")
          (sharesFor [⟨"AAPL", FVal.fin 100, FVal.fin 10⟩, ⟨"AAPL", FVal.fin 120, FVal.fin 10⟩] "AAPL"))
        (sharesFor [⟨"AAPL", FVal.fin 100, FVal.fin 10⟩, ⟨"AAPL", FVal.fin 120, FVal.fin 10⟩] "AAPL") =
      specCostSum [⟨"AAPL", FVal.fin 100, FVal.fin 10⟩, ⟨"AAPL", FVal.fin 120, FVal.fin 10⟩] "AAPL" ∧
    sharesFor [⟨"AAPL", FVal.fin 100, FVal.fin 10⟩, ⟨"AAPL", FVal.fin 120, FVal.fin 10⟩] "AAPL" =
      specSharesSum [⟨"AAPL", FVal.fin 100, FVal.fin 10⟩, ⟨"AAPL", FVal.fin 120, FVal.fin 10⟩] "AAPL" := by
  refine c1_consolidate_product_and_shares _ "AAPL" ?_ (by decide) ?_
  · intro p hp
    rcases List.mem_cons.mp hp with h | h
    · subst h; exact ⟨⟨100, rfl⟩, ⟨10, rfl⟩⟩
    · rcases List.mem_cons.mp h with h2 | h2
      · subst h2; exact ⟨⟨120, rfl⟩, ⟨10, rfl⟩⟩
      · cases h2
  · have h20 : sharesFor [⟨"AAPL", FVal.fin 100, FVal.fin 10⟩, ⟨"AAPL", FVal.fin 120, FVal.fin 10⟩] "AAPL" =
        FVal.fin 20 := by
      simp +decide [sharesFor, List.filter, fadd] <;> norm_num
    rw [h20]
    intro h
    rw [FVal.fin.injEq] at h
    norm_num at h

/-- Counterexample for C1 as literally stated: with a single position of
zero shares the consolidated buyPrice is NaN (0.0/0.0) and
buyPrice * shares = NaN differs from the input sum of products, 0. -/
theorem c1_counterexample :
    (consolidate_positions [⟨"A", FVal.fin 100, FVal.fin 0⟩]).find? (fun p => p.ticker == "A") =
      some ⟨"A", FVal.nan, FVal.fin 0⟩ ∧
    specCostSum [⟨"A", FVal.fin 100, FVal.fin 0⟩] "A" = FVal.fin 0 ∧
    fmul FVal.nan (FVal.fin 0) ≠ specCostSum [⟨"A", FVal.fin 100, FVal.fin 0⟩] "A" := by
  have hc : costFor [⟨"A", FVal.fin 100, FVal.fin 0⟩] "A" = FVal.fin 0 := by
    simp +decide [costFor, List.filter, fadd, fmul] <;> norm_num
  have hs : sharesFor [⟨"A", FVal.fin 100, FVal.fin 0⟩] "A" = FVal.fin 0 := by
    simp +decide [sharesFor, List.filter, fadd] <;> norm_num
  have hspec : specCostSum [⟨"A", FVal.fin 100, FVal.fin 0⟩] "A" = FVal.fin 0 := by
    rw [specCostSum_eq, hc]
  refine ⟨?_, hspec, ?_⟩
  · have hfind := consolidate_find [⟨"A", FVal.fin 100, FVal.fin 0⟩] "A" (by decide)
    rw [hc, hs] at hfind
    simpa [fdiv] using hfind
  · rw [hspec]
    simp [fmul]

/-- C4: consolidating a ticker whose total shares is zero does not surface
an error; the code divides 0.0 by 0.0 and silently emits a Position whose
buy_price is NaN. -/
theorem c4_zero_shares_silent_nan :
    consolidate_positions [⟨"A", FVal.fin 100, FVal.fin 0⟩] = [⟨"A", FVal.nan, FVal.fin 0⟩] := by
  have hc : costFor [⟨"A", FVal.fin 100, FVal.fin 0⟩] "A" = FVal.fin 0 := by
    simp +decide [costFor, List.filter, fadd, fmul] <;> norm_num
  have hs : sharesFor [⟨"A", FVal.fin 100, FVal.fin 0⟩] "A" = FVal.fin 0 := by
    simp +decide [sharesFor, List.filter, fadd] <;> norm_num
  have ht : tickersOf [⟨"A", FVal.fin 100, FVal.fin 0⟩] = ["A"] := by decide
  rw [consolidate_positions, ht, List.map_cons, List.map_nil, hc, hs]
  simp [fdiv]

/-! ### Aggregation -/

theorem tcv_foldl (l : List (Position × Except String FVal)) : ∀ acc : FVal,
    l.foldl
      (fun (a : FVal) (x : Position × Except String FVal) =>
        match x.2 with
        | Except.ok c => fadd a (fmul c x.1.shares)
        | Except.error _ => a) acc =
    ((l.filter (fun x => isOkB x.2)).map (fun x => fmul (okOr0 x.2) x.1.shares)).foldl fadd acc := by
  induction l with
  | nil => intro acc; rfl
  | cons x l ih =>
    intro acc
    obtain ⟨p, out⟩ := x
    cases out with
    | ok c => simpa [List.filter_cons, isOkB, okOr0] using ih _
    | error e => simpa [List.filter_cons, isOkB, okOr0] using ih acc

/-- C3: total_investment sums buyPrice * shares over all resolved positions,
succeeded and failed alike; total_current_value sums currentPrice * shares
over the succeeded ones only; and a failed pair's record carries current
price 0, change percent negative infinity, profit/loss 0 and the retained
message. -/
theorem c3_totals_and_failure_records (resolved : List (Position × Except String FVal))
    (pr : Position × Except String FVal) (e : String)
    (hmem : pr ∈ resolved) (he : pr.2 = Except.error e) :
    total_investment resolved = sumF (resolved.map (fun x => fmul x.1.buy_price x.1.shares)) ∧
    total_current_value resolved =
      sumF ((resolved.filter (fun x => isOkB x.2)).map (fun x => fmul (okOr0 x.2) x.1.shares)) ∧
    mkRec pr = ⟨pr.1.ticker, pr.1.buy_price, FVal.fin 0, FVal.negInf, FVal.fin 0, some e⟩ := by
  refine ⟨?_, ?_, ?_⟩
  · simp [total_investment, sumF, List.foldl_map, investment]
  · rw [total_current_value, sumF]
    exact tcv_foldl resolved (FVal.fin 0)
  · rw [mkRec, he]

/-- Witness for C3 at the spec's failed-fetch example: one MSFT position
whose fetch times out. -/
theorem c3_witness :
    total_investment
        ([(⟨"MSFT", FVal.fin 50, FVal.fin 5⟩, Except.error "timeout")] :
          List (Position × Except String FVal)) =
      sumF (([(⟨"MSFT", FVal.fin 50, FVal.fin 5⟩, Except.error "timeout")] :
          List (Position × Except String FVal)).map
        (fun x => fmul x.1.buy_price x.1.shares)) ∧
    total_current_value
        ([(⟨"MSFT", FVal.fin 50, FVal.fin 5⟩, Except.error "timeout")] :
          List (Position × Except String FVal)) =
      sumF ((([(⟨"MSFT", FVal.fin 50, FVal.fin 5⟩, Except.error "timeout")] :
            List (Position × Except String FVal)).filter
          (fun x => isOkB x.2)).map (fun x => fmul (okOr0 x.2) x.1.shares)) ∧
    mkRec ((⟨"MSFT", FVal.fin 50, FVal.fin 5⟩, Except.error "timeout") :
        Position × Except String FVal) =
      ⟨"MSFT", FVal.fin 50, FVal.fin 0, FVal.negInf, FVal.fin 0, some "timeout"⟩ :=
  c3_totals_and_failure_records _ _ "timeout" (List.mem_singleton.mpr rfl) rfl

/-- C5: with zero total investment (here: the empty resolved list) the code
computes (0 - 0) / 0 * 100, which is NaN, and uses it as the portfolio
change percent; there is no distinct "no data" state. -/
theorem c5_portfolio_percent_nan :
    total_investment ([] : List (Position × Except String FVal)) = FVal.fin 0 ∧
    total_change_percent ([] : List (Position × Except String FVal)) = FVal.nan := by
  constructor
  · rfl
  · rw [total_change_percent]
    have h1 : total_investment ([] : List (Position × Except String FVal)) = FVal.fin 0 := rfl
    have h2 : total_current_value ([] : List (Position × Except String FVal)) = FVal.fin 0 := rfl
    rw [h1, h2, fsub_fin]
    norm_num [fdiv, fmul]

/-- C9: the orchestrator output has one entry per input position, and the
i-th entry pairs the i-th position with the outcome of fetching that
position's ticker, for any injected fetch function. -/
theorem c9_resolveAll_pairs (fetch : String → Except String FVal) (ps : List Position)
    (i : ℕ) (h : i < ps.length) :
    (resolveAll fetch ps).length = ps.length ∧
    (resolveAll fetch ps)[i]? = some (ps.get ⟨i, h⟩, fetch ((ps.get ⟨i, h⟩).ticker)) := by
  constructor
  · simp [resolveAll]
  · simp [resolveAll, List.getElem?_map, List.getElem?_eq_getElem h, List.get_eq_getElem]

/-- Witness for C9 with a stubbed fetch mixing one success and one failure. -/
theorem c9_witness :
    (resolveAll (fun t => if t = "A" then Except.ok (FVal.fin 1) else Except.error "boom")
        [⟨"A", FVal.fin 10, FVal.fin 1⟩, ⟨"B", FVal.fin 20, FVal.fin 2⟩]).length = 2 ∧
    (resolveAll (fun t => if t = "A" then Except.ok (FVal.fin 1) else Except.error "boom")
        [⟨"A", FVal.fin 10, FVal.fin 1⟩, ⟨"B", FVal.fin 20, FVal.fin 2⟩])[1]? =
      some (⟨"B", FVal.fin 20, FVal.fin 2⟩, Except.error "boom") :=
  c9_resolveAll_pairs _ _ 1 (by decide)

/-! ### The sort comparator and its order -/

theorem pcmp_nan_right (x : FVal) : pcmp x FVal.nan = none := by
  cases x <;> rfl

theorem pcmp_nan_left (x : FVal) : pcmp FVal.nan x = none := by
  cases x <;> rfl

theorem leRec_iff_key (a b : RankedRecord) (ha : finOrBot a) (hb : finOrBot b) :
    (leRec a b = true ↔ cpKey b ≤ cpKey a) := by
  rcases ha with ⟨q, hq⟩ | hq <;> rcases hb with ⟨r, hr⟩ | hr <;>
    simp only [leRec, cmpRec, cpKey, hq, hr, pcmp, Option.getD_some]
  · rcases lt_trichotomy q r with h | h | h
    · have h1 : ¬ r < q := by linarith
      have h2 : ¬ (r : WithBot ℚ) ≤ (q : WithBot ℚ) := by
        simpa using not_le.mpr h
      simp [h, h1, h2]
    · subst h
      simp
    · have h1 : ¬ q < r := by linarith
      have h2 : (r : WithBot ℚ) ≤ (q : WithBot ℚ) := by
        simpa using le_of_lt h
      simp [h, h1, h2]
  · simp
  · simpa using (WithBot.not_coe_le_bot (r : WithBot ℚ))
  · simp

theorem mem_insRec (x : RankedRecord) :
    ∀ (l : List RankedRecord) (y : RankedRecord), y ∈ insRec x l → y = x ∨ y ∈ l := by
  intro l
  induction l with
  | nil =>
    intro y hy
    rw [insRec] at hy
    exact Or.inl (List.mem_singleton.mp hy)
  | cons z l ih =>
    intro y hy
    rw [insRec] at hy
    by_cases h : leRec x z = true
    · rw [if_pos h] at hy
      rcases List.mem_cons.mp hy with h1 | h1
      · exact Or.inl h1
      · exact Or.inr h1
    · rw [if_neg h] at hy
      rcases List.mem_cons.mp hy with h1 | h1
      · exact Or.inr (h1 ▸ List.mem_cons_self z l)
      · rcases ih y h1 with h2 | h2
        · exact Or.inl h2
        · exact Or.inr (List.mem_cons_of_mem z h2)

theorem mem_sortRecs : ∀ (l : List RankedRecord) (y : RankedRecord),
    y ∈ sortRecs l → y ∈ l := by
  intro l
  induction l with
  | nil => intro y hy; exact absurd hy (by simp [sortRecs])
  | cons x l ih =>
    intro y hy
    have hstep : sortRecs (x :: l) = insRec x (sortRecs l) := rfl
    rw [hstep] at hy
    rcases mem_insRec x (sortRecs l) y hy with h | h
    · exact h ▸ List.mem_cons_self x l
    · exact List.mem_cons_of_mem x (ih y h)

theorem sorted_insRec (x : RankedRecord) (hx : finOrBot x) :
    ∀ l : List RankedRecord, (∀ y ∈ l, finOrBot y) →
      l.Pairwise (fun a b => leRec a b = true) →
      (insRec x l).Pairwise (fun a b => leRec a b = true) := by
  intro l
  induction l with
  | nil =>
    intro _ _
    rw [insRec]
    exact List.pairwise_singleton _ x
  | cons z l ih =>
    intro hl hs
    have hz : finOrBot z := hl z (List.mem_cons_self z l)
    rcases List.pairwise_cons.mp hs with ⟨hzall, hl'⟩
    rw [insRec]
    by_cases h : leRec x z = true
    · rw [if_pos h]
      refine List.pairwise_cons.mpr ⟨?_, hs⟩
      intro y hy
      rcases List.mem_cons.mp hy with h1 | h1
      · exact h1 ▸ h
      · have hy' : finOrBot y := hl y (List.mem_cons_of_mem z h1)
        have hzy := hzall y h1
        rw [leRec_iff_key x z hx hz] at h
        rw [leRec_iff_key z y hz hy'] at hzy
        exact (leRec_iff_key x y hx hy').mpr (le_trans hzy h)
    · rw [if_neg h]
      refine List.pairwise_cons.mpr
        ⟨?_, ih (fun y hy => hl y (List.mem_cons_of_mem z hy)) hl'⟩
      intro y hy
      rcases mem_insRec x l y hy with h1 | h1
      · rw [h1]
        rw [leRec_iff_key x z hx hz] at h
        exact (leRec_iff_key z x hz hx).mpr (le_of_not_le h)
      · exact hzall y h1

theorem sorted_sortRecs : ∀ l : List RankedRecord, (∀ y ∈ l, finOrBot y) →
    (sortRecs l).Pairwise (fun a b => leRec a b = true) := by
  intro l
  induction l with
  | nil => intro _; simp [sortRecs]
  | cons x l ih =>
    intro hl
    have hstep : sortRecs (x :: l) = insRec x (sortRecs l) := rfl
    rw [hstep]
    refine sorted_insRec x (hl x (List.mem_cons_self x l)) (sortRecs l) ?_
      (ih fun y hy => hl y (List.mem_cons_of_mem x hy))
    intro y hy
    exact hl y (List.mem_cons_of_mem x (mem_sortRecs l y hy))

theorem wfRec_of_wfPair (pr : Position × Except String FVal) (h : wfPair pr) :
    wfRec (mkRec pr) := by
  obtain ⟨⟨b, hb, hb0⟩, hok⟩ := h
  cases hout : pr.2 with
  | ok c =>
    obtain ⟨q, hq⟩ := hok c hout
    left
    refine ⟨(q - b) / b * 100, ?_, ?_⟩
    · simp only [mkRec, hout, hq, hb]
      rw [fsub_fin, fdiv_fin _ _ (ne_of_gt hb0), fmul_fin]
    · simp [mkRec, hout]
  | error e =>
    right
    constructor <;> simp [mkRec, hout]

theorem finOrBot_of_wfRec (r : RankedRecord) (h : wfRec r) : finOrBot r := by
  rcases h with ⟨q, hq, _⟩ | ⟨hq, _⟩
  · exact Or.inl ⟨q, hq⟩
  · exact Or.inr hq

/-- C2: for resolved positions that are well formed per the data model
(positive finite buy price; finite price on success), the sorted output
never places a failed record before a succeeded one and is descending by
change percent among succeeded records; and the comparator is a total
function that maps any NaN-adjacent comparison to Equal instead of
erroring. -/
theorem c2_sort_failures_last_descending (resolved : List (Position × Except String FVal))
    (hwf : ∀ pr ∈ resolved, wfPair pr) :
    (sortRecs (position_data resolved)).Pairwise
      (fun a b => (b.error = none → a.error = none) ∧
        (∀ qa qb : ℚ, a.change_percent = FVal.fin qa → b.change_percent = FVal.fin qb →
          qb ≤ qa)) ∧
    (∀ a b : RankedRecord, a.change_percent = FVal.nan ∨ b.change_percent = FVal.nan →
      cmpRec a b = Ordering.eq) := by
  constructor
  · have hrec : ∀ y ∈ position_data resolved, wfRec y := by
      intro y hy
      obtain ⟨pr, hpr, rfl⟩ := List.mem_map.mp hy
      exact wfRec_of_wfPair pr (hwf pr hpr)
    have hsorted := sorted_sortRecs (position_data resolved)
      (fun y hy => finOrBot_of_wfRec y (hrec y hy))
    refine List.Pairwise.imp_of_mem ?_ hsorted
    intro a b hma hmb hle
    have hwa := hrec a (mem_sortRecs _ a hma)
    have hwb := hrec b (mem_sortRecs _ b hmb)
    constructor
    · intro hbe
      rcases hwa with ⟨qa, hqa, hea⟩ | ⟨hqa, hea⟩
      · exact hea
      · rcases hwb with ⟨qb, hqb, _⟩ | ⟨hqb, heb⟩
        · exfalso
          rw [leRec_iff_key a b (Or.inr hqa) (Or.inl ⟨qb, hqb⟩)] at hle
          simp only [cpKey, hqa, hqb] at hle
          exact WithBot.not_coe_le_bot qb hle
        · exact absurd hbe heb
    · intro qa qb hqa hqb
      rw [leRec_iff_key a b (Or.inl ⟨qa, hqa⟩) (Or.inl ⟨qb, hqb⟩)] at hle
      simp only [cpKey, hqa, hqb] at hle
      exact_mod_cast hle
  · intro a b h
    rcases h with h | h
    · simp [cmpRec, h, pcmp_nan_right]
    · simp [cmpRec, h, pcmp_nan_left]

/-- Witness for C2: one gaining, one failing and one losing position; the
hypotheses of the theorem hold and the sorted output is pairwise ordered. -/
theorem c2_witness :
    (sortRecs (position_data ([(⟨"A", FVal.fin 100, FVal.fin 1⟩, Except.ok (FVal.fin 110)),
        (⟨"B", FVal.fin 100, FVal.fin 1⟩, Except.error "boom"),
        (⟨"C", FVal.fin 100, FVal.fin 1⟩, Except.ok (FVal.fin 90))] :
        List (Position × Except String FVal)))).Pairwise
      (fun a b => (b.error = none → a.error = none) ∧
        (∀ qa qb : ℚ, a.change_percent = FVal.fin qa → b.change_percent = FVal.fin qb →
          qb ≤ qa)) := by
  refine (c2_sort_failures_last_descending _ ?_).1
  intro pr hpr
  rcases List.mem_cons.mp hpr with h | h
  · subst h
    exact ⟨⟨100, rfl, by norm_num⟩, fun c hc => ⟨110, by injection hc with h2; exact h2.symm⟩⟩
  rcases List.mem_cons.mp h with h1 | h1
  · subst h1
    exact ⟨⟨100, rfl, by norm_num⟩, fun c hc => by cases hc⟩
  rcases List.mem_cons.mp h1 with h2 | h2
  · subst h2
    exact ⟨⟨100, rfl, by norm_num⟩, fun c hc => ⟨90, by injection hc with h3; exact h3.symm⟩⟩
  · cases h2

/-! ### The extraction scan -/

theorem stripLit_eq_some : ∀ (m s r : List Char), stripLit m s = some r ↔ s = m ++ r := by
  intro m
  induction m with
  | nil =>
    intro s r
    simp [stripLit, eq_comm]
  | cons c m ih =>
    intro s r
    cases s with
    | nil => simp [stripLit]
    | cons d s =>
      by_cases h : c = d
      · subst h
        rw [stripLit, if_pos rfl]
        simp [ih s r]
      · rw [stripLit, if_neg h]
        simp
        intro h2
        exact absurd h2.symm h

theorem spanP_append (p : Char → Bool) : ∀ s : List Char, (spanP p s).1 ++ (spanP p s).2 = s := by
  intro s
  induction s with
  | nil => rfl
  | cons c s ih =>
    by_cases h : p c = true
    · rw [spanP, if_pos h]
      simpa using ih
    · rw [spanP, if_neg h]
      rfl

theorem spanP_fst_all (p : Char → Bool) : ∀ s : List Char, ∀ c ∈ (spanP p s).1, p c = true := by
  intro s
  induction s with
  | nil => intro c hc; cases hc
  | cons d s ih =>
    by_cases h : p d = true
    · rw [spanP, if_pos h]
      intro c hc
      rcases List.mem_cons.mp hc with h1 | h1
      · exact h1 ▸ h
      · exact ih c h1
    · rw [spanP, if_neg h]
      intro c hc
      cases hc

theorem spanP_snd_head (p : Char → Bool) : ∀ s : List Char,
    (spanP p s).2 = [] ∨ ∃ c r, (spanP p s).2 = c :: r ∧ p c = false := by
  intro s
  induction s with
  | nil => exact Or.inl rfl
  | cons d s ih =>
    by_cases h : p d = true
    · rw [spanP, if_pos h]
      exact ih
    · rw [spanP, if_neg h]
      exact Or.inr ⟨d, s, rfl, by simpa using h⟩

theorem spanP_of_parts (p : Char → Bool) : ∀ (a r : List Char),
    (∀ c ∈ a, p c = true) → (r = [] ∨ ∃ c r2, r = c :: r2 ∧ p c = false) →
    spanP p (a ++ r) = (a, r) := by
  intro a
  induction a with
  | nil =>
    intro r _ hr
    rcases hr with rfl | ⟨c, r2, rfl, hc⟩
    · rfl
    · rw [List.nil_append, spanP, if_neg (by simp [hc])]
  | cons d a ih =>
    intro r ha hr
    have hd : p d = true := ha d (List.mem_cons_self d a)
    rw [List.cons_append, spanP, if_pos hd,
      ih r (fun c hc => ha c (List.mem_cons_of_mem d hc)) hr]

theorem matchAt_eq_some (s m cap : List Char) :
    matchAt s m = some cap ↔
    ∃ attrs post : List Char,
      s = m ++ attrs ++ '>' :: (cap ++ closeL ++ post) ∧
      attrs ≠ [] ∧ (∀ c ∈ attrs, c ≠ '>') ∧ validLit cap = true := by
  constructor
  · intro h
    rw [matchAt] at h
    cases hstrip : stripLit m s with
    | none => rw [hstrip] at h; cases h
    | some r1 =>
      rw [hstrip] at h
      dsimp only at h
      by_cases hemp : (spanP (fun c => c != '>') r1).1.isEmpty
      · rw [if_pos hemp] at h; cases h
      · rw [if_neg hemp] at h
        cases hgt : stripLit ['>'] (spanP (fun c => c != '>') r1).2 with
        | none => rw [hgt] at h; cases h
        | some r2 =>
          rw [hgt] at h
          dsimp only at h
          by_cases hval : validLit (spanP isNumC r2).1 = true
          · rw [if_pos hval] at h
            cases hcl : stripLit closeL (spanP isNumC r2).2 with
            | none => rw [hcl] at h; cases h
            | some post =>
              rw [hcl] at h
              dsimp only at h
              have hcap : (spanP isNumC r2).1 = cap := by
                injection h
              refine ⟨(spanP (fun c => c != '>') r1).1, post, ?_, ?_, ?_, hcap ▸ hval⟩
              · have h1 : s = m ++ r1 := (stripLit_eq_some m s r1).mp hstrip
                have h2 : (spanP (fun c => c != '>') r1).2 = '>' :: r2 :=
                  (stripLit_eq_some ['>'] _ r2).mp hgt
                have h3 : (spanP isNumC r2).2 = closeL ++ post :=
                  (stripLit_eq_some closeL _ post).mp hcl
                have h4 : r2 = cap ++ (closeL ++ post) := by
                  rw [← hcap, ← h3]
                  exact (spanP_append isNumC r2).symm
                have hr1 : r1 =
                    (spanP (fun c => c != '>') r1).1 ++ ('>' :: (cap ++ (closeL ++ post))) := by
                  conv_lhs => rw [← spanP_append (fun c => c != '>') r1]
                  rw [h2, h4]
                conv_lhs => rw [h1, hr1]
                simp
              · simpa [List.isEmpty_iff] using hemp
              · intro c hc
                have := spanP_fst_all (fun c => c != '>') r1 c hc
                simpa using this
          · rw [if_neg hval] at h; cases h
  · rintro ⟨attrs, post, hs, hne, hgt, hval⟩
    have hstrip : stripLit m s = some (attrs ++ '>' :: (cap ++ closeL ++ post)) :=
      (stripLit_eq_some _ _ _).mpr (by simpa using hs)
    have hspan1 : spanP (fun c => c != '>') (attrs ++ '>' :: (cap ++ closeL ++ post)) =
        (attrs, '>' :: (cap ++ closeL ++ post)) := by
      refine spanP_of_parts _ attrs _ ?_ (Or.inr ⟨'>', _, rfl, by simp⟩)
      intro c hc
      simpa using hgt c hc
    have hcapall : ∀ c ∈ cap, isNumC c = true := by
      intro c hc
      cases hcap : cap with
      | nil => rw [hcap] at hc; cases hc
      | cons d cap' =>
        rw [hcap] at hval
        rw [validLit] at hval
        simp only [Bool.and_eq_true] at hval
        exact List.all_eq_true.mp hval.1.2 c (hcap ▸ hc)
    have hspan2 : spanP isNumC (cap ++ closeL ++ post) = (cap, closeL ++ post) := by
      rw [List.append_assoc]
      refine spanP_of_parts _ cap _ hcapall (Or.inr ⟨'<', _, rfl, by decide⟩)
    rw [matchAt, hstrip]
    dsimp only
    rw [hspan1]
    dsimp only
    have hne' : ¬ attrs.isEmpty = true := by simpa [List.isEmpty_iff] using hne
    rw [if_neg hne']
    have hgt2 : stripLit ['>'] ('>' :: (cap ++ closeL ++ post)) = some (cap ++ closeL ++ post) :=
      (stripLit_eq_some _ _ _).mpr rfl
    rw [hgt2]
    dsimp only
    rw [hspan2]
    dsimp only
    rw [if_pos hval]
    have hcl : stripLit closeL (closeL ++ post) = some post :=
      (stripLit_eq_some _ _ _).mpr rfl
    rw [hcl]

theorem matchAt_nil (m : List Char) : matchAt [] m = none := by
  cases m <;> rfl

theorem scan_some_exists (m : List Char) : ∀ (s cap : List Char),
    scanExtract s m = some cap → ∃ i, matchAt (s.drop i) m = some cap := by
  intro s
  induction s with
  | nil => intro cap h; cases h
  | cons c t ih =>
    intro cap h
    rw [scanExtract] at h
    cases hm : matchAt (c :: t) m with
    | some cap2 =>
      rw [hm] at h
      injection h with h2
      exact ⟨0, by rw [List.drop_zero, hm, h2]⟩
    | none =>
      rw [hm] at h
      obtain ⟨i, hi⟩ := ih cap h
      exact ⟨i + 1, by simpa using hi⟩

theorem scan_none_all (m : List Char) : ∀ s : List Char,
    scanExtract s m = none → ∀ i, matchAt (s.drop i) m = none := by
  intro s
  induction s with
  | nil => intro _ i; rw [List.drop_nil]; exact matchAt_nil m
  | cons c t ih =>
    intro h i
    rw [scanExtract] at h
    cases hm : matchAt (c :: t) m with
    | some cap2 => rw [hm] at h; cases h
    | none =>
      rw [hm] at h
      cases i with
      | zero => rw [List.drop_zero]; exact hm
      | succ j => simpa using ih h j

theorem scan_first (m : List Char) : ∀ (s cap : List Char) (k : ℕ),
    matchAt (s.drop k) m = some cap → (∀ j < k, matchAt (s.drop j) m = none) →
    scanExtract s m = some cap := by
  intro s
  induction s with
  | nil =>
    intro cap k hk _
    rw [List.drop_nil] at hk
    rw [matchAt_nil] at hk
    cases hk
  | cons c t ih =>
    intro cap k hk hmin
    cases k with
    | zero =>
      rw [List.drop_zero] at hk
      rw [scanExtract, hk]
    | succ j =>
      have h0 : matchAt (c :: t) m = none := by
        have := hmin 0 (Nat.succ_pos j)
        simpa using this
      rw [scanExtract, h0]
      refine ih cap j (by simpa using hk) ?_
      intro i hi
      have := hmin (i + 1) (Nat.succ_lt_succ hi)
      simpa using this

theorem scan_some_iff_embedding (t : String) (body : String) :
    (∃ cap, scanExtract body.toList (markerOf t) = some cap) ↔ hasEmbedding t body := by
  constructor
  · rintro ⟨cap, hcap⟩
    obtain ⟨i, hi⟩ := scan_some_exists (markerOf t) body.toList cap hcap
    obtain ⟨attrs, post, hdec, hne, hgt, hval⟩ := (matchAt_eq_some _ _ _).mp hi
    refine ⟨body.toList.take i, attrs, cap, post, ?_, hne, hgt, hval⟩
    conv_lhs => rw [← List.take_append_drop i body.toList, hdec]
    simp
  · rintro ⟨pre, attrs, lit, post, hdec, hne, hgt, hval⟩
    have hmatch : matchAt (body.toList.drop pre.length) (markerOf t) = some lit := by
      rw [hdec]
      have hdrop : ((pre ++ (markerOf t ++ attrs ++ '>' :: (lit ++ closeL ++ post))) :
          List Char).drop pre.length = markerOf t ++ attrs ++ '>' :: (lit ++ closeL ++ post) :=
        List.drop_left pre _
      rw [show pre ++ markerOf t ++ attrs ++ '>' :: (lit ++ closeL ++ post) =
        pre ++ (markerOf t ++ attrs ++ '>' :: (lit ++ closeL ++ post)) by simp, hdrop]
      exact (matchAt_eq_some _ _ _).mpr ⟨attrs, post, rfl, hne, hgt, hval⟩
    cases hscan : scanExtract body.toList (markerOf t) with
    | none =>
      have := scan_none_all (markerOf t) body.toList hscan pre.length
      rw [this] at hmatch
      cases hmatch
    | some cap => exact ⟨cap, rfl⟩

theorem scan_cap_valid (m : List Char) (s cap : List Char)
    (h : scanExtract s m = some cap) : validLit cap = true := by
  obtain ⟨i, hi⟩ := scan_some_exists m s cap h
  obtain ⟨_, _, _, _, _, hval⟩ := (matchAt_eq_some _ _ _).mp hi
  exact hval

/-! ### The f64 parse of a captured literal -/

theorem isDig_facts (c : Char) (h : isDig c = true) :
    c ≠ '-' ∧ c ≠ '+' ∧ lowChar c = c ∧ lowChar c ≠ 'i' ∧ lowChar c ≠ 'n' := by
  have hb : 48 ≤ c.toNat ∧ c.toNat ≤ 57 := by simpa [isDig] using h
  have hlow : lowChar c = c := by
    rw [lowChar, if_neg]
    omega
  refine ⟨?_, ?_, hlow, ?_, ?_⟩
  · rintro rfl; revert hb; decide
  · rintro rfl; revert hb; decide
  · rw [hlow]; rintro rfl; revert hb; decide
  · rw [hlow]; rintro rfl; revert hb; decide

theorem splitSign_nosign (c : Char) (l : List Char) (h1 : c ≠ '-') (h2 : c ≠ '+') :
    splitSign (c :: l) = (false, c :: l) := by
  rw [splitSign]
  rw [if_neg h1, if_neg h2]

theorem not_keyword (c : Char) (l : List Char) (h : isDig c = true) :
    ¬((c :: l).map lowChar = "inf".toList ∨ (c :: l).map lowChar = "infinity".toList) ∧
    ¬(c :: l).map lowChar = "nan".toList := by
  obtain ⟨_, _, _, hi, hn⟩ := isDig_facts c h
  constructor
  · rintro (hk | hk)
    · rw [List.map_cons, show "inf".toList = ['i', 'n', 'f'] from rfl] at hk
      exact hi (by injection hk)
    · rw [List.map_cons,
        show "infinity".toList = ['i', 'n', 'f', 'i', 'n', 'i', 't', 'y'] from rfl] at hk
      exact hi (by injection hk)
  · intro hk
    rw [List.map_cons, show "nan".toList = ['n', 'a', 'n'] from rfl] at hk
    exact hn (by injection hk)

theorem isNumC_not_dot (x : Char) (h1 : isNumC x = true) (h2 : x ≠ '.') : isDig x = true := by
  rw [isNumC, Bool.or_eq_true] at h1
  rcases h1 with h | h
  · exact h
  · exact absurd (by simpa using h) h2

theorem parseMantissa_digits (ip : List Char) (hipne : ip ≠ [])
    (hip : ∀ x ∈ ip, isDig x = true) :
    parseMantissa ip = some ((digitsToNat ip : ℚ), []) := by
  have hsp : spanP isDig ip = (ip, []) := by
    have := spanP_of_parts isDig ip [] hip (Or.inl rfl)
    simpa using this
  rw [parseMantissa, hsp]
  dsimp only
  rw [show stripLit ['.'] ([] : List Char) = none from rfl]
  dsimp only
  rw [if_neg (by simpa [List.isEmpty_iff] using hipne)]

theorem parseMantissa_digits_dot (ip fp : List Char) (hipne : ip ≠ [])
    (hip : ∀ x ∈ ip, isDig x = true) (hfp : ∀ x ∈ fp, isDig x = true) :
    parseMantissa (ip ++ '.' :: fp) =
      some ((digitsToNat ip : ℚ) + (digitsToNat fp : ℚ) / 10 ^ fp.length, []) := by
  have hsp : spanP isDig (ip ++ '.' :: fp) = (ip, '.' :: fp) :=
    spanP_of_parts isDig ip ('.' :: fp) hip (Or.inr ⟨'.', fp, rfl, by decide⟩)
  have hsp2 : spanP isDig fp = (fp, []) := by
    have := spanP_of_parts isDig fp [] hfp (Or.inl rfl)
    simpa using this
  rw [parseMantissa, hsp]
  dsimp only
  rw [show stripLit ['.'] ('.' :: fp) = some fp from (stripLit_eq_some _ _ _).mpr rfl]
  dsimp only
  rw [hsp2]
  dsimp only
  rw [if_neg (by simp [List.isEmpty_iff, hipne])]

theorem validLit_shape (l : List Char) (h : validLit l = true) :
    (l ≠ [] ∧ ∀ x ∈ l, isDig x = true) ∨
    ∃ ip fp, l = ip ++ '.' :: fp ∧ ip ≠ [] ∧ (∀ x ∈ ip, isDig x = true) ∧
      ∀ x ∈ fp, isDig x = true := by
  cases l with
  | nil => simp [validLit] at h
  | cons c l' =>
    simp only [validLit, Bool.and_eq_true, decide_eq_true_eq] at h
    obtain ⟨⟨hc, hall⟩, hcnt⟩ := h
    have hallm := List.all_eq_true.mp hall
    by_cases hdot : ('.' : Char) ∈ c :: l'
    · right
      rcases hsp : spanP (fun x => x != '.') (c :: l') with ⟨ip, rest⟩
      have happ : ip ++ rest = c :: l' := by
        have := spanP_append (fun x => x != '.') (c :: l')
        rw [hsp] at this
        exact this
      have hipnd : ∀ x ∈ ip, x ≠ '.' := by
        intro x hx
        have := spanP_fst_all (fun x => x != '.') (c :: l') x (by rw [hsp]; exact hx)
        simpa using this
      have hrest : ∃ fp, rest = '.' :: fp := by
        have hsh := spanP_snd_head (fun x => x != '.') (c :: l')
        rw [hsp] at hsh
        rcases hsh with rfl | ⟨d, fp, rfl, hd⟩
        · exfalso
          rw [List.append_nil] at happ
          exact hipnd '.' (happ ▸ hdot) rfl
        · have hd' : d = '.' := by simpa using hd
          exact ⟨fp, by rw [hd']⟩
      obtain ⟨fp, rfl⟩ := hrest
      refine ⟨ip, fp, happ.symm, ?_, ?_, ?_⟩
      · rintro rfl
        rw [List.nil_append] at happ
        have hcd : c = '.' := by
          have := congrArg (fun l => l.headI) happ
          simpa using this.symm
        rw [hcd] at hc
        exact absurd hc (by decide)
      · intro x hx
        have hmem : x ∈ c :: l' := by
          rw [← happ]
          exact List.mem_append_left _ hx
        exact isNumC_not_dot x (hallm x hmem) (hipnd x hx)
      · have hcnt2 : (c :: l').count '.' = ip.count '.' + (fp.count '.' + 1) := by
          rw [← happ, List.count_append, List.count_cons_self]
        have hfp0 : fp.count '.' = 0 := by omega
        intro x hx
        refine isNumC_not_dot x (hallm x ?_) ?_
        · rw [← happ]
          exact List.mem_append_right _ (List.mem_cons_of_mem _ hx)
        · rintro rfl
          exact List.count_eq_zero.mp hfp0 hx
    · left
      refine ⟨by simp, ?_⟩
      intro x hx
      refine isNumC_not_dot x (hallm x hx) ?_
      rintro rfl
      exact hdot hx

theorem rustParse_of_validLit (l : List Char) (h : validLit l = true) :
    ∃ q : ℚ, rustParse l = some (FVal.fin q) ∧ 0 ≤ q := by
  cases l with
  | nil => simp [validLit] at h
  | cons c l' =>
    have hc : isDig c = true := by
      have h' := h
      simp only [validLit, Bool.and_eq_true] at h'
      exact h'.1.1
    obtain ⟨hm, hp, _, _, _⟩ := isDig_facts c hc
    have hsgn : splitSign (c :: l') = (false, c :: l') := splitSign_nosign c l' hm hp
    have hman : ∃ v : ℚ, parseMantissa (c :: l') = some (v, []) ∧ 0 ≤ v := by
      rcases validLit_shape (c :: l') h with ⟨hne, hdig⟩ | ⟨ip, fp, heq, hipne, hip, hfp⟩
      · exact ⟨(digitsToNat (c :: l') : ℚ), parseMantissa_digits _ hne hdig, by positivity⟩
      · refine ⟨(digitsToNat ip : ℚ) + (digitsToNat fp : ℚ) / 10 ^ fp.length, ?_, by positivity⟩
        rw [heq]
        exact parseMantissa_digits_dot ip fp hipne hip hfp
    obtain ⟨v, hv, hv0⟩ := hman
    refine ⟨v * (10 : ℚ) ^ (0 : ℤ), ?_, by positivity⟩
    rw [rustParse, hsgn]
    dsimp only
    rw [if_neg (not_keyword c l' hc).1, if_neg (not_keyword c l' hc).2, hv]
    dsimp only
    simp [parseExp]

/-! ### The extractor claims -/

/-- C6: if a ticker's marker embeds a valid numeric literal in the body (and
no earlier position matches the pattern), extraction returns exactly that
literal's parsed value, and any ticker argument with the same ASCII
lowercasing gives the same result. -/
theorem c6_extract_embedded_value (t t2 body : String) (pre attrs lit post : List Char)
    (v : FVal)
    (hbody : body.toList = pre ++ markerOf t ++ attrs ++ '>' :: (lit ++ closeL ++ post))
    (hattrs : attrs ≠ []) (hgt : ∀ c ∈ attrs, c ≠ '>') (hlit : validLit lit = true)
    (hfirst : ∀ i < pre.length, matchAt (body.toList.drop i) (markerOf t) = none)
    (hv : rustParse lit = some v)
    (hcase : lowStr t2 = lowStr t) :
    extract_price t body = Except.ok v ∧ extract_price t2 body = Except.ok v := by
  have hmatch : matchAt (body.toList.drop pre.length) (markerOf t) = some lit := by
    rw [hbody]
    rw [show pre ++ markerOf t ++ attrs ++ '>' :: (lit ++ closeL ++ post) =
      pre ++ (markerOf t ++ attrs ++ '>' :: (lit ++ closeL ++ post)) by simp,
      List.drop_left pre _]
    exact (matchAt_eq_some _ _ _).mpr ⟨attrs, post, rfl, hattrs, hgt, hlit⟩
  have hscan : scanExtract body.toList (markerOf t) = some lit :=
    scan_first (markerOf t) body.toList lit pre.length hmatch hfirst
  have h1 : extract_price t body = Except.ok v := by
    rw [extract_price, hscan]
    dsimp only
    rw [hv]
  have hmeq : markerOf t2 = markerOf t := by
    rw [markerOf, markerOf, hcase]
  have h2 : extract_price t2 body = extract_price t body := by
    rw [extract_price, extract_price, hmeq]
  exact ⟨h1, by rw [h2, h1]⟩

/-- C7: extraction succeeds exactly when the body contains a well-formed
embedding of the ticker's marker with a numeric literal, and every failure
is the single NotFound message ("Could not find price in response"); a
matched capture always parses, so the parse-error branch contributes no
other failure. -/
theorem c7_notfound_iff_no_embedding (t body : String) :
    (extract_price t body = Except.error notFoundMsg ↔ ¬ hasEmbedding t body) ∧
    ((∃ p, extract_price t body = Except.ok p) ↔ hasEmbedding t body) := by
  cases hscan : scanExtract body.toList (markerOf t) with
  | none =>
    have hemb : ¬ hasEmbedding t body := by
      rw [← scan_some_iff_embedding]
      rintro ⟨cap, hc⟩
      rw [hscan] at hc
      cases hc
    constructor
    · exact ⟨fun _ => hemb, fun _ => by rw [extract_price, hscan]⟩
    · constructor
      · rintro ⟨p, hp⟩
        rw [extract_price, hscan] at hp
        cases hp
      · intro h
        exact absurd h hemb
  | some cap =>
    have hemb : hasEmbedding t body := (scan_some_iff_embedding t body).mp ⟨cap, hscan⟩
    obtain ⟨q, hq, _⟩ := rustParse_of_validLit cap (scan_cap_valid (markerOf t) _ cap hscan)
    have hok : extract_price t body = Except.ok (FVal.fin q) := by
      rw [extract_price, hscan]
      dsimp only
      rw [hq]
    constructor
    · constructor
      · intro h
        rw [hok] at h
        cases h
      · intro h
        exact absurd hemb h
    · exact ⟨fun _ => hemb, fun _ => ⟨FVal.fin q, hok⟩⟩

/-- C8 (amended): every successful extraction returns a finite nonnegative
value. The capture grammar [0-9]+\.?[0-9]* admits the literal 0, so the
claimed strict positivity fails (see the counterexample). -/
theorem c8_success_nonneg (t body : String) (p : FVal)
    (h : extract_price t body = Except.ok p) : ∃ q : ℚ, p = FVal.fin q ∧ 0 ≤ q := by
  cases hscan : scanExtract body.toList (markerOf t) with
  | none =>
    rw [extract_price, hscan] at h
    cases h
  | some cap =>
    obtain ⟨q, hq, hq0⟩ := rustParse_of_validLit cap (scan_cap_valid (markerOf t) _ cap hscan)
    rw [extract_price, hscan] at h
    dsimp only at h
    rw [hq] at h
    injection h with h2
    exact ⟨q, h2.symm, hq0⟩

/-- C10: the parse-error propagation branch of fetch_latest_price is
unreachable: for every ticker and body the pure extraction core returns a
finite parsed price or the single NotFound message, never a parse error. -/
theorem c10_no_parse_error (t body : String) :
    (∃ q : ℚ, extract_price t body = Except.ok (FVal.fin q)) ∨
    extract_price t body = Except.error notFoundMsg := by
  cases hscan : scanExtract body.toList (markerOf t) with
  | none =>
    right
    rw [extract_price, hscan]
  | some cap =>
    left
    obtain ⟨q, hq, _⟩ := rustParse_of_validLit cap (scan_cap_valid (markerOf t) _ cap hscan)
    exact ⟨q, by rw [extract_price, hscan]; dsimp only; rw [hq]⟩

/-- Witness for C6: the literal 105 embedded for ticker AAPL is extracted,
and a mixed-case ticker argument gives the same result. -/
theorem c6_witness :
    extract_price "AAPL" "xx id=aq_aapl_c4 c>105</span>yy" = Except.ok (FVal.fin 105) ∧
    extract_price "aApL" "xx id=aq_aapl_c4 c>105</span>yy" = Except.ok (FVal.fin 105) := by
  have hv : rustParse "105".toList = some (FVal.fin 105) := by
    have h1 : spanP isDig ['1', '0', '5'] = (['1', '0', '5'], []) := by decide
    have h3 : digitsToNat ['1', '0', '5'] = 105 := by decide
    simp +decide [rustParse, parseMantissa, parseExp, splitSign, stripLit, h1, h3]
  refine c6_extract_embedded_value "AAPL" "aApL" "xx id=aq_aapl_c4 c>105</span>yy"
    "xx ".toList " c".toList "105".toList "yy".toList (FVal.fin 105)
    ?_ ?_ ?_ ?_ ?_ hv ?_
  · decide
  · decide
  · decide
  · decide
  · decide
  · decide

/-- Witness for C8: the successful extraction of 105 is finite and
nonnegative. -/
theorem c8_witness : ∃ q : ℚ, FVal.fin 105 = FVal.fin q ∧ 0 ≤ q := by
  refine c8_success_nonneg "GOOG" "id=aq_goog_c4 a>105</span>" (FVal.fin 105) ?_
  have hscan : scanExtract "id=aq_goog_c4 a>105</span>".toList (markerOf "GOOG") =
      some "105".toList := by decide
  have hv : rustParse "105".toList = some (FVal.fin 105) := by
    have h1 : spanP isDig ['1', '0', '5'] = (['1', '0', '5'], []) := by decide
    have h3 : digitsToNat ['1', '0', '5'] = 105 := by decide
    simp +decide [rustParse, parseMantissa, parseExp, splitSign, stripLit, h1, h3]
  rw [extract_price, hscan]
  dsimp only
  rw [hv]

/-- Counterexample for C8 as literally stated: a quoted price of 0 is a
valid capture, extraction succeeds with value 0, and 0 is not positive. -/
theorem c8_counterexample :
    extract_price "X" "id=aq_x_c4 a>0</span>" = Except.ok (FVal.fin 0) ∧ ¬ ((0 : ℚ) > 0) := by
  constructor
  · have hscan : scanExtract "id=aq_x_c4 a>0</span>".toList (markerOf "X") = some ['0'] := by
      decide
    have hv : rustParse ['0'] = some (FVal.fin 0) := by
      have h1 : spanP isDig ['0'] = (['0'], []) := by decide
      have h3 : digitsToNat ['0'] = 0 := by decide
      simp +decide [rustParse, parseMantissa, parseExp, splitSign, stripLit, h1, h3]
    rw [extract_price, hscan]
    dsimp only
    rw [hv]
  · norm_num
